import Mathlib

/-!
Verification of the zen pixel-level-decorrelation core (src/zen_funcs.py and
the bin-width sweep in src/zen.py).

Conventions of the embedding:
* floating-point arrays become `List ℝ` (model and eclipse code, which use
  `sqrt`/`arccos`) or `List ℚ` (binning and parameter expansion, which are
  pure arithmetic);
* a NaN produced by an out-of-domain `arccos`/`sqrt` or a division by zero is
  modeled as `none : Option ℝ`;
* a Python `IndexError` (out-of-range indexing) is modeled as `none`;
* an uncaught exception from the external nonlinear solver is modeled as
  `Except.error`.
-/

namespace Zen

noncomputable section

open scoped Classical

/-- The signed radius ratio `p = sqrt(|depth|) * (depth/|depth|)` from
`zen_funcs.eclipse` (line 111). -/
def pval (depth : ℝ) : ℝ := Real.sqrt |depth| * (depth / |depth|)

/-- The ingress/egress flux formula shared by the two branches of
`zen_funcs.eclipse` (lines 125-129 and 132-136), as a function of the
normalized separation `z`.  The float code computes
`k0 = arccos((p^2+z^2-1)/(2pz))`, `k1 = arccos((1-p^2+z^2)/(2z))` and
`y = 1 - depth/|depth|/pi * (p^2 k0 + k1 - sqrt((4z^2-(1+z^2-p^2)^2)/4))`;
a division by zero or an out-of-domain `arccos`/`sqrt` argument yields NaN,
modeled here as `none`. -/
def mandelFlux (depth p z : ℝ) : Option ℝ :=
  if 2 * p * z = 0 then none
  else
    let a0 := (p ^ 2 + z ^ 2 - 1) / (2 * p * z)
    let a1 := (1 - p ^ 2 + z ^ 2) / (2 * z)
    let s := (4 * z ^ 2 - (1 + z ^ 2 - p ^ 2) ^ 2) / 4
    if a0 < -1 ∨ 1 < a0 then none
    else if a1 < -1 ∨ 1 < a1 then none
    else if s < 0 then none
    else some (1 - depth / |depth| / Real.pi *
      (p ^ 2 * Real.arccos a0 + Real.arccos a1 - Real.sqrt s))

/-- One sample of `zen_funcs.eclipse(t, eclparams)` (lines 72-140):
the per-element body of the loop at lines 118-136, with
`eclparams = [midpt, width, depth, t12, t34, flux]`.  The `depth == 0`
early return (lines 91-93) makes every sample 1.  A zero `t12`/`t34`
(division by zero in `z`, line 125/132) yields NaN, modeled `none`. -/
def eclipseAt (eclparams : List ℝ) (t : ℝ) : Option ℝ :=
  let midpt := eclparams.getD 0 0
  let width := eclparams.getD 1 0
  let depth := eclparams.getD 2 0
  let t12 := eclparams.getD 3 0
  let t34 := eclparams.getD 4 0
  if depth = 0 then some 1
  else
    let t1 := midpt - width / 2
    let t2 := if t1 + t12 < midpt then t1 + t12 else midpt
    let t4 := midpt + width / 2
    let t3 := if t4 - t34 > midpt then t4 - t34 else midpt
    let p := pval depth
    if t2 ≤ t ∧ t ≤ t3 then some (1 - depth)
    else if p ≠ 0 then
      if t1 ≤ t ∧ t ≤ t2 then
        if t12 = 0 then none
        else mandelFlux depth p (-2 * p * (t - t1) / t12 + 1 + p)
      else if t3 < t ∧ t < t4 then
        if t34 = 0 then none
        else mandelFlux depth p (2 * p * (t - t3) / t34 + 1 - p)
      else some 1
    else some 1

/-- `zen_funcs.eclipse` applied to a whole time array. -/
def eclipse (t : List ℝ) (eclparams : List ℝ) : List (Option ℝ) :=
  t.map (eclipseAt eclparams)

/-- `zen_funcs.zen(par, x, phat, npix)` (lines 142-187): per sample `s`,
`y[s] = sum_i par[i]*phat[s,i] + eclparams[-1]*(eclmodel[s]-1)
       + (par[-3] + par[-2]*x[s] + par[-1]*x[s]^2)`
with `eclparams = par[npix:-3]`.  `phat` is the list of rows (samples). -/
def zen (par x : List ℝ) (phat : List (List ℝ)) (npix : ℕ) : List (Option ℝ) :=
  let eclparams := (par.drop npix).take (par.length - npix - 3)
  (List.range x.length).map (fun s =>
    (eclipseAt eclparams (x.getD s 0)).map (fun e =>
      (∑ i in Finset.range npix, par.getD i 0 * (phat.getD s []).getD i 0)
      + eclparams.getLastD 0 * (e - 1)
      + (par.getD (par.length - 3) 0
         + par.getD (par.length - 2) 0 * x.getD s 0
         + par.getD (par.length - 1) 0 * (x.getD s 0) ^ 2)))

end

/-! ### Binner (`zen_funcs.bindata`, lines 189-220) -/

/-- Python `min(x)` (line 191); the empty case raises in Python and is never
reached under the claims' hypotheses. -/
def listMin : List ℚ → ℚ
  | [] => 0
  | a :: l => l.foldl min a

/-- Python `max(x)` (line 191). -/
def listMax : List ℚ → ℚ
  | [] => 0
  | a :: l => l.foldl max a

/-- `np.arange(a, b, w)` for `w > 0`: the values `a + k*w` for
`0 ≤ k < ceil((b - a)/w)`. -/
def arange (a b w : ℚ) : List ℚ :=
  (List.range (⌈(b - a) / w⌉).toNat).map (fun k : ℕ => a + (k : ℚ) * w)

/-- `bins = np.arange(min(x), max(x), width)` (line 191). -/
def binEdges (x : List ℚ) (width : ℚ) : List ℚ :=
  arange (listMin x) (listMax x) width

/-- `np.digitize` for increasing edges: the index `i` such that
`edges[i-1] ≤ xi < edges[i]`, i.e. the number of edges `≤ xi`. -/
def digitize (xi : ℚ) (edges : List ℚ) : ℕ :=
  (edges.filter (fun e => e ≤ xi)).length

/-- The samples assigned to bin `i` (`digitized == i` at line 204):
the filter runs over the zipped sample tuples, whose first component is the
`x` value that was digitized. -/
def binGroup (pairs : List (ℚ × α)) (edges : List ℚ) (i : ℕ) : List (ℚ × α) :=
  pairs.filter (fun pr => digitize pr.1 edges = i)

/-- Mean of a list; the empty case is numpy's NaN-producing
`mean of empty slice` (line 204/208), modeled as `none`. -/
def omean (l : List ℚ) : Option ℚ :=
  if l = [] then none else some (l.sum / l.length)

/-- `binmask`-style extraction (lines 215-220): keep the entries of `l`
whose mask bit is set (numpy boolean indexing with an equal-length mask). -/
def applyMask : List α → List Bool → List α
  | a :: l, b :: m => if b then a :: applyMask l m else applyMask l m
  | _, _ => []

/-- `zen_funcs.bindata(x, y, width)` with `yerr=None`: per-bin means of the
`x` and `y` samples, with empty bins masked out of both returned arrays
(lines 203-210 and 218-220).  A returned entry is `none` exactly when numpy
would have returned NaN there. -/
def bindata (x y : List ℚ) (width : ℚ) : List (Option ℚ) × List (Option ℚ) :=
  let edges := binEdges x width
  let pairs := x.zip y
  let mask := (List.range edges.length).map
    (fun k => decide (binGroup pairs edges (k + 1) ≠ []))
  (applyMask ((List.range edges.length).map
      (fun k => omean ((binGroup pairs edges (k + 1)).map Prod.fst))) mask,
   applyMask ((List.range edges.length).map
      (fun k => omean ((binGroup pairs edges (k + 1)).map Prod.snd))) mask)

/-- The per-bin propagated uncertainty `sqrt(sum(yerr^2))/n` (line 212);
for an empty bin the division by `n = 0` makes the float code produce NaN,
modeled `none`. -/
noncomputable def oerrMean (l : List ℚ) : Option ℝ :=
  if l = [] then none
  else some (Real.sqrt ((l.map (fun v => (v : ℝ) ^ 2)).sum) / l.length)

/-- `zen_funcs.bindata(x, y, width, yerr)` with uncertainties supplied
(lines 211-217): same bins and mask as `bindata`, plus the propagated
per-bin uncertainty array. -/
noncomputable def bindataErr (x y yerr : List ℚ) (width : ℚ) :
    List (Option ℚ) × List (Option ℚ) × List (Option ℝ) :=
  let edges := binEdges x width
  let triples := x.zip (y.zip yerr)
  let mask := (List.range edges.length).map
    (fun k => decide (binGroup triples edges (k + 1) ≠ []))
  (applyMask ((List.range edges.length).map
      (fun k => omean ((binGroup triples edges (k + 1)).map Prod.fst))) mask,
   applyMask ((List.range edges.length).map
      (fun k => omean ((binGroup triples edges (k + 1)).map (fun pr => pr.2.1)))) mask,
   applyMask ((List.range edges.length).map
      (fun k => oerrMean ((binGroup triples edges (k + 1)).map (fun pr => pr.2.2)))) mask)

/-! ### ParameterExpander (`zen_funcs.get_params`, lines 283-304) -/

/-- The tie target `int(-stepsize[i]-1)` (line 302): Python `int` truncates
toward zero; for `s < 0` the value `-s-1` lies in `(-1, ∞)`, where
truncation agrees with `⌊-s-1⌋.toNat`. -/
def tieIdx (s : ℚ) : ℕ := (⌊-s - 1⌋).toNat

/-- First pass of `get_params` (lines 290-297): walk `stepsize`; a positive
entry consumes the next `bestP` value, otherwise the paired `params` entry
is copied.  Exhausting `bestP` (or `params`) is Python's `IndexError`,
modeled `none`. -/
def pass1 : List ℚ → List ℚ → List ℚ → Option (List ℚ)
  | [], _, _ => some []
  | s :: ss, ps, bp =>
    if 0 < s then
      match bp with
      | [] => none
      | b :: bs => (pass1 ss ps.tail bs).map (fun out => b :: out)
    else
      match ps with
      | [] => none
      | p :: ps' => (pass1 ss ps' bp).map (fun out => p :: out)

/-- Second pass of `get_params` (lines 300-302): sequentially overwrite each
negative-step entry with the current value at its tie target; an
out-of-range tie target is an `IndexError`, modeled `none`.  `i` is the
absolute index of the head of the remaining `stepsize` suffix. -/
def pass2go : List ℚ → ℕ → List ℚ → Option (List ℚ)
  | [], _, arr => some arr
  | s :: ss, i, arr =>
    if s < 0 then
      match arr[tieIdx s]? with
      | none => none
      | some v => pass2go ss (i + 1) (arr.set i v)
    else pass2go ss (i + 1) arr

/-- `zen_funcs.get_params(bestP, stepsize, params)`. -/
def get_params (bestP stepsize params : List ℚ) : Option (List ℚ) :=
  (pass1 stepsize params bestP).bind (fun arr => pass2go stepsize 0 arr)

/-- Number of strictly positive step sizes (free parameters). -/
def posCount (stepsize : List ℚ) : ℕ :=
  (stepsize.filter (fun s => 0 < s)).length

/-! ### BinWidthOptimizer (`zen.main`, lines 143-189) -/

/-- The bin-width sweep loop of `zen.main` (src/zen.py lines 143-189), with
the per-width pipeline (binning, `scipy.optimize.curve_fit`, reduced
chi-squared, lines 148-184) abstracted into `fit`.  `fit w = .error e`
models the exception `curve_fit` raises on non-convergence; the loop body
contains no `try`/`except`, so the error propagates out of the whole loop.
The running best is updated by the strict comparison at line 187. -/
def sweepGo (fit : ℚ → Except Unit ℚ) :
    List ℚ → ℚ → Option ℚ → Except Unit (ℚ × Option ℚ)
  | [], chibest, binbest => .ok (chibest, binbest)
  | w :: ws, chibest, binbest =>
    match fit w with
    | .error e => .error e
    | .ok chi =>
      if chi < chibest then sweepGo fit ws chi (some w)
      else sweepGo fit ws chibest binbest

/-- The whole sweep: `chibest` starts at `1e300` (line 138),
`binbest` unset. -/
def sweep (fit : ℚ → Except Unit ℚ) (widths : List ℚ) :
    Except Unit (ℚ × Option ℚ) :=
  sweepGo fit widths (10 ^ 300) none

/-- A fit oracle that fails to converge at width 1 and converges everywhere
else; used to exercise the sweep's behavior on a partial failure. -/
def fitFailFirst : ℚ → Except Unit ℚ :=
  fun w => if w = 1 then .error () else .ok 0

/-! ## Theorems -/

theorem foldl_min_le_init (l : List ℚ) : ∀ acc : ℚ, l.foldl min acc ≤ acc := by
  induction l with
  | nil => intro acc; simp
  | cons b t ih =>
    intro acc
    simpa using le_trans (ih (min acc b)) (min_le_left _ _)

theorem foldl_min_le_mem (l : List ℚ) :
    ∀ (acc a : ℚ), a ∈ l → l.foldl min acc ≤ a := by
  induction l with
  | nil => simp
  | cons b t ih =>
    intro acc a ha
    rcases List.mem_cons.mp ha with rfl | ha
    · simpa using le_trans (foldl_min_le_init t _) (min_le_right _ _)
    · exact ih _ a ha

theorem init_le_foldl_max (l : List ℚ) : ∀ acc : ℚ, acc ≤ l.foldl max acc := by
  induction l with
  | nil => intro acc; simp
  | cons b t ih =>
    intro acc
    simpa using le_trans (le_max_left _ _) (ih (max acc b))

theorem mem_le_foldl_max (l : List ℚ) :
    ∀ (acc a : ℚ), a ∈ l → a ≤ l.foldl max acc := by
  induction l with
  | nil => simp
  | cons b t ih =>
    intro acc a ha
    rcases List.mem_cons.mp ha with rfl | ha
    · simpa using le_trans (le_max_right _ _) (init_le_foldl_max t _)
    · exact ih _ a ha

/-- `min(x)` is a lower bound of the samples. -/
theorem listMin_le (x : List ℚ) (a : ℚ) (ha : a ∈ x) : listMin x ≤ a := by
  cases x with
  | nil => cases ha
  | cons b t =>
    rcases List.mem_cons.mp ha with rfl | ha
    · exact foldl_min_le_init t a
    · exact foldl_min_le_mem t b a ha

/-- `max(x)` is an upper bound of the samples. -/
theorem le_listMax (x : List ℚ) (a : ℚ) (ha : a ∈ x) : a ≤ listMax x := by
  cases x with
  | nil => cases ha
  | cons b t =>
    rcases List.mem_cons.mp ha with rfl | ha
    · exact init_le_foldl_max t a
    · exact mem_le_foldl_max t b a ha

/-- When the requested width covers the whole x-range, `np.arange`
produces a single edge at `min(x)`. -/
theorem binEdges_single (x : List ℚ) (width : ℚ)
    (hlt : listMin x < listMax x) (hw : listMax x - listMin x ≤ width) :
    binEdges x width = [listMin x] := by
  have hwpos : 0 < width := lt_of_lt_of_le (by linarith) hw
  have hceil : ⌈(listMax x - listMin x) / width⌉ = 1 := by
    rw [Int.ceil_eq_iff]
    have h1 : (0 : ℚ) < (listMax x - listMin x) / width :=
      div_pos (by linarith) hwpos
    have h2 : (listMax x - listMin x) / width ≤ 1 := by
      rw [div_le_one hwpos]
      linarith
    constructor
    · push_cast
      linarith
    · push_cast
      linarith
  unfold binEdges arange
  rw [hceil]
  rw [show List.range (Int.toNat 1) = [0] from rfl]
  norm_num

/-- A single edge at `m` digitizes every sample `≥ m` to bin 1. -/
theorem digitize_single (xi m : ℚ) (h : m ≤ xi) : digitize xi [m] = 1 := by
  simp [digitize, List.filter, h]

/-- C7: if the width covers the whole x-range, `bindata` returns exactly
one bin whose x and y values are the means of all input x and y values. -/
theorem bindata_single_bin (x y : List ℚ) (width : ℚ) (hx : x ≠ [])
    (hlt : listMin x < listMax x) (hw : listMax x - listMin x ≤ width)
    (hxy : x.length = y.length) :
    bindata x y width =
      ([some (x.sum / x.length)], [some (y.sum / y.length)]) := by
  have hy : y ≠ [] := by
    intro h
    rw [h] at hxy
    exact hx (List.length_eq_zero.mp (by simpa using hxy))
  have hzip : x.zip y ≠ [] := by
    cases x with
    | nil => exact absurd rfl hx
    | cons a t =>
      cases y with
      | nil => exact absurd rfl hy
      | cons c t2 => simp [List.zip]
  have hall : binGroup (x.zip y) [listMin x] 1 = x.zip y := by
    unfold binGroup
    apply List.filter_eq_self.mpr
    intro pr hpr
    obtain ⟨a, b⟩ := pr
    have ha : a ∈ x := (List.mem_zip hpr).1
    simp [digitize_single a (listMin x) (listMin_le x a ha)]
  have hfst : (x.zip y).map Prod.fst = x := List.map_fst_zip x y (le_of_eq hxy)
  have hsnd : (x.zip y).map Prod.snd = y := List.map_snd_zip x y (ge_of_eq hxy)
  simp only [bindata]
  rw [binEdges_single x width hlt hw]
  rw [show List.range ([listMin x]).length = [0] from rfl]
  simp only [List.map_cons, List.map_nil, Nat.zero_add, hall, hfst, hsnd, hzip,
    ne_eq, not_false_eq_true, decide_True]
  rw [show applyMask [omean x] [true] = [omean x] from rfl]
  rw [show applyMask [omean y] [true] = [omean y] from rfl]
  rw [omean, omean, if_neg hx, if_neg hy]

/-- Witness for C7 at a concrete input. -/
theorem bindata_single_bin_witness :
    (([(0 : ℚ), 1] ≠ []) ∧ listMin [(0 : ℚ), 1] < listMax [(0 : ℚ), 1] ∧
      listMax [(0 : ℚ), 1] - listMin [(0 : ℚ), 1] ≤ 5 ∧
      ([(0 : ℚ), 1].length = [(10 : ℚ), 20].length)) ∧
      bindata [(0 : ℚ), 1] [(10 : ℚ), 20] 5 =
        ([some ([(0 : ℚ), 1].sum / [(0 : ℚ), 1].length)],
         [some ([(10 : ℚ), 20].sum / [(10 : ℚ), 20].length)]) :=
  ⟨⟨by decide, by norm_num [listMin, listMax, List.foldl, min_def, max_def],
      by norm_num [listMin, listMax, List.foldl, min_def, max_def], by decide⟩,
    bindata_single_bin [0, 1] [10, 20] 5 (by decide)
      (by norm_num [listMin, listMax, List.foldl, min_def, max_def])
      (by norm_num [listMin, listMax, List.foldl, min_def, max_def])
      (by decide)⟩

theorem sum_filter_fiber {α : Type} (f : α → ℕ) (n : ℕ) :
    ∀ l : List α, (∀ a ∈ l, 1 ≤ f a ∧ f a ≤ n) →
      ∑ k in Finset.range n, (l.filter (fun a => f a = k + 1)).length
        = l.length := by
  intro l
  induction l with
  | nil => intro _; simp
  | cons b t ih =>
    intro h
    have hb := h b (List.mem_cons_self b t)
    have ht := fun a ha => h a (List.mem_cons_of_mem b ha)
    have hlen : ∀ k : ℕ,
        ((b :: t).filter (fun a => f a = k + 1)).length
          = (if f b = k + 1 then 1 else 0)
            + (t.filter (fun a => f a = k + 1)).length := by
      intro k
      rw [List.filter_cons]
      by_cases hfb : f b = k + 1
      · simp [hfb, Nat.add_comm]
      · simp [hfb]
    rw [Finset.sum_congr rfl (fun k _ => hlen k), Finset.sum_add_distrib, ih ht]
    have hiff : ∀ k : ℕ, (f b = k + 1) ↔ (k = f b - 1) := by omega
    have hone : ∑ k in Finset.range n, (if f b = k + 1 then 1 else 0) = 1 := by
      simp only [hiff]
      rw [Finset.sum_ite_eq' (Finset.range n) (f b - 1) (fun _ => 1)]
      rw [if_pos (Finset.mem_range.mpr (by omega))]
    rw [hone]
    simp [Nat.add_comm]

theorem listMin_mem_binEdges (x : List ℚ) (width : ℚ)
    (hlt : listMin x < listMax x) (hw : 0 < width) :
    listMin x ∈ binEdges x width := by
  unfold binEdges arange
  have hc : (0 : ℤ) < ⌈(listMax x - listMin x) / width⌉ :=
    Int.ceil_pos.mpr (div_pos (by linarith) hw)
  refine List.mem_map.mpr ⟨0, List.mem_range.mpr ?_, by norm_num⟩
  omega

/-- Every sample digitizes to a bin index in `[1, len(bins)]`: the loop at
lines 203-212 visits every occupied bin. -/
theorem digitize_pos (x : List ℚ) (width xi : ℚ) (hxi : xi ∈ x)
    (hlt : listMin x < listMax x) (hw : 0 < width) :
    1 ≤ digitize xi (binEdges x width) := by
  unfold digitize
  have hmem : listMin x ∈ (binEdges x width).filter (fun e => e ≤ xi) :=
    List.mem_filter.mpr ⟨listMin_mem_binEdges x width hlt hw,
      by simpa using listMin_le x xi hxi⟩
  exact List.length_pos.mpr (List.ne_nil_of_mem hmem)

theorem digitize_le_length (xi : ℚ) (edges : List ℚ) :
    digitize xi edges ≤ edges.length :=
  List.length_filter_le _ _

/-- All bin edges lie at or below `max(x)` (arange's stop is exclusive). -/
theorem binEdges_le_max (x : List ℚ) (width : ℚ) (hw : 0 < width) :
    ∀ e ∈ binEdges x width, e ≤ listMax x := by
  unfold binEdges arange
  intro e he
  obtain ⟨k, hk, rfl⟩ := List.mem_map.mp he
  have hk' : (k : ℤ) < ⌈(listMax x - listMin x) / width⌉ := by
    have := List.mem_range.mp hk
    omega
  have h1 : ((k : ℚ)) + 1 ≤ (⌈(listMax x - listMin x) / width⌉ : ℤ) := by
    exact_mod_cast hk'
  have h2 : ((⌈(listMax x - listMin x) / width⌉ : ℤ) : ℚ)
      < (listMax x - listMin x) / width + 1 := Int.ceil_lt_add_one _
  have h3 : (k : ℚ) < (listMax x - listMin x) / width := by
    have h1' : ((k : ℚ)) + 1 ≤ ((⌈(listMax x - listMin x) / width⌉ : ℤ) : ℚ) := by
      exact_mod_cast h1
    linarith
  have h4 : (k : ℚ) * width < listMax x - listMin x := (lt_div_iff hw).mp h3
  linarith

/-- `max(x)` itself digitizes to the last bin (index `len(bins)`), so it is
kept rather than dropped. -/
theorem digitize_max (x : List ℚ) (width : ℚ) (hw : 0 < width) :
    digitize (listMax x) (binEdges x width) = (binEdges x width).length := by
  unfold digitize
  rw [List.filter_eq_self.mpr]
  intro e he
  simpa using binEdges_le_max x width hw e he

/-- C10: every sample is assigned to exactly one of the bins the loop
visits — `max(x)` lands in the last bin, and the per-bin sample counts sum
to the total sample count. -/
theorem bindata_partition (x y : List ℚ) (width : ℚ) (hx : x ≠ [])
    (hlt : listMin x < listMax x) (hw : 0 < width)
    (hxy : x.length = y.length) :
    digitize (listMax x) (binEdges x width) = (binEdges x width).length ∧
      ∑ k in Finset.range (binEdges x width).length,
        (binGroup (x.zip y) (binEdges x width) (k + 1)).length = x.length := by
  refine ⟨digitize_max x width hw, ?_⟩
  have hlen : (x.zip y).length = x.length := by
    simp [List.length_zip, hxy]
  have hf : ∀ pr ∈ x.zip y,
      1 ≤ digitize pr.1 (binEdges x width) ∧
        digitize pr.1 (binEdges x width) ≤ (binEdges x width).length := by
    intro pr hpr
    obtain ⟨a, b⟩ := pr
    exact ⟨digitize_pos x width a (List.mem_zip hpr).1 hlt hw,
      digitize_le_length a (binEdges x width)⟩
  have := sum_filter_fiber (fun pr : ℚ × ℚ => digitize pr.1 (binEdges x width))
    (binEdges x width).length (x.zip y) hf
  unfold binGroup
  rw [this, hlen]

/-- Witness for C10 at a concrete input. -/
theorem bindata_partition_witness :
    (([(0 : ℚ), 1] ≠ []) ∧ listMin [(0 : ℚ), 1] < listMax [(0 : ℚ), 1] ∧
      (0 : ℚ) < 1 / 2 ∧ ([(0 : ℚ), 1].length = [(10 : ℚ), 20].length)) ∧
      (digitize (listMax [(0 : ℚ), 1]) (binEdges [(0 : ℚ), 1] (1 / 2))
          = (binEdges [(0 : ℚ), 1] (1 / 2)).length ∧
        ∑ k in Finset.range (binEdges [(0 : ℚ), 1] (1 / 2)).length,
          (binGroup ([(0 : ℚ), 1].zip [(10 : ℚ), 20])
            (binEdges [(0 : ℚ), 1] (1 / 2)) (k + 1)).length
          = [(0 : ℚ), 1].length) :=
  ⟨⟨by decide, by norm_num [listMin, listMax, List.foldl, min_def, max_def],
      by norm_num, by decide⟩,
    bindata_partition [0, 1] [10, 20] (1 / 2) (by decide)
      (by norm_num [listMin, listMax, List.foldl, min_def, max_def])
      (by norm_num) (by decide)⟩

theorem applyMask_length_eq {α β : Type} (m : List Bool) :
    ∀ (l1 : List α) (l2 : List β), l1.length = l2.length →
      (applyMask l1 m).length = (applyMask l2 m).length := by
  induction m with
  | nil =>
    intro l1 l2 _
    cases l1 <;> cases l2 <;> simp [applyMask]
  | cons b ms ih =>
    intro l1 l2 h
    cases l1 with
    | nil => cases l2 with
      | nil => simp [applyMask]
      | cons c t2 => simp at h
    | cons a t1 => cases l2 with
      | nil => simp at h
      | cons c t2 =>
        simp only [List.length_cons, Nat.succ.injEq] at h
        cases b <;> simp [applyMask, ih t1 t2 h]

theorem applyMask_map_map {ι α : Type} (l : List ι) (g : ι → α)
    (bm : ι → Bool) (P : α → Prop)
    (h : ∀ i ∈ l, bm i = true → P (g i)) :
    ∀ a ∈ applyMask (l.map g) (l.map bm), P a := by
  induction l with
  | nil => simp [applyMask]
  | cons i t ih =>
    simp only [List.map_cons, applyMask]
    have ht : ∀ i' ∈ t, bm i' = true → P (g i') := fun i' hi' =>
      h i' (List.mem_cons_of_mem i hi')
    by_cases hb : bm i = true
    · rw [if_pos hb]
      intro a ha
      rcases List.mem_cons.mp ha with rfl | ha
      · exact h i (List.mem_cons_self i t) hb
      · exact ih ht a ha
    · rw [if_neg hb]
      exact ih ht

/-- C5: `eclipse` with zero depth returns an all-ones sequence of the same
length as the input, regardless of the other five parameters (the check at
lines 91-93 precedes every use of `depth` as a divisor). -/
theorem eclipse_zero_depth (t eclparams : List ℝ)
    (h : eclparams.getD 2 0 = 0) :
    eclipse t eclparams = List.replicate t.length (some (1 : ℝ)) := by
  have hpt : ∀ x : ℝ, eclipseAt eclparams x = some 1 := by
    intro x
    unfold eclipseAt
    rw [if_pos h]
  calc eclipse t eclparams = t.map (fun _ => some (1 : ℝ)) :=
        List.map_congr_left (fun x _ => hpt x)
    _ = List.replicate t.length (some (1 : ℝ)) := List.map_const' t _

/-- Witness for C5 at a concrete input. -/
theorem eclipse_zero_depth_witness :
    ([(7 : ℝ), 1, 0, 2, 3, 1].getD 2 0 = 0) ∧
      eclipse [(5 : ℝ)] [(7 : ℝ), 1, 0, 2, 3, 1] =
        List.replicate 1 (some (1 : ℝ)) := by
  refine ⟨by norm_num, ?_⟩
  have h := eclipse_zero_depth [(5 : ℝ)] [(7 : ℝ), 1, 0, 2, 3, 1] (by norm_num)
  simpa using h

/-- C3 (amended): `mandelFlux` does not clamp the `arccos` argument
`(p^2+z^2-1)/(2pz)`; when it falls outside `[-1, 1]` the sample evaluates
to NaN (`none`). -/
theorem mandelFlux_no_clamp (depth p z : ℝ)
    (h : (p ^ 2 + z ^ 2 - 1) / (2 * p * z) < -1 ∨
         1 < (p ^ 2 + z ^ 2 - 1) / (2 * p * z)) :
    mandelFlux depth p z = none := by
  have hz : 2 * p * z ≠ 0 := by
    intro h0
    rw [h0, div_zero] at h
    rcases h with h | h <;> norm_num at h
  unfold mandelFlux
  rw [if_neg hz]
  simp only
  rw [if_pos h]

/-- Witness for the amended C3 at a concrete out-of-domain argument. -/
theorem mandelFlux_no_clamp_witness :
    ((1 : ℝ) < ((2 : ℝ) ^ 2 + (1 / 2 : ℝ) ^ 2 - 1) / (2 * 2 * (1 / 2))) ∧
      mandelFlux 4 2 (1 / 2) = none :=
  ⟨by norm_num, mandelFlux_no_clamp 4 2 (1 / 2) (Or.inr (by norm_num))⟩

/-- C3 (counterexample to the claim as stated): with depth `4` (so `p = 2`)
the ingress sample at `t = 5` drives the `arccos` argument to `13/8 > 1`
and the eclipse output contains NaN; nothing is clamped. -/
theorem eclipse_nan_counterexample :
    eclipse [(5 : ℝ)] [(8 : ℝ), 16, 4, 8, 8, 1] = [none] := by
  have h4 : |(4 : ℝ)| = 4 := by norm_num
  have hs : Real.sqrt 4 = 2 := by
    rw [show (4 : ℝ) = 2 ^ 2 by norm_num]
    exact Real.sqrt_sq (by norm_num)
  have hp : pval 4 = 2 := by
    unfold pval
    rw [h4, hs]
    norm_num
  have hz : (-2 : ℝ) * 2 * (5 - (8 - 16 / 2)) / 8 + 1 + 2 = 1 / 2 := by
    norm_num
  have hmf : mandelFlux 4 2 (1 / 2) = none :=
    mandelFlux_no_clamp 4 2 (1 / 2) (Or.inr (by norm_num))
  unfold eclipse
  rw [List.map_singleton]
  unfold eclipseAt
  simp only [List.getD_cons_succ, List.getD_cons_zero, hp]
  rw [if_neg (by norm_num : ¬(4 : ℝ) = 0)]
  rw [if_neg (by norm_num : ¬((8 : ℝ) - 16 / 2 + 8 < 8))]
  rw [if_neg (by norm_num : ¬((8 : ℝ) + 16 / 2 - 8 > 8))]
  rw [if_neg (by norm_num : ¬((8 : ℝ) ≤ 5 ∧ (5 : ℝ) ≤ 8))]
  rw [if_pos (by norm_num : (2 : ℝ) ≠ 0)]
  rw [if_pos (by norm_num : (8 : ℝ) - 16 / 2 ≤ 5 ∧ (5 : ℝ) ≤ 8)]
  rw [if_neg (by norm_num : ¬(8 : ℝ) = 0)]
  rw [show (-2 : ℝ) * 2 * (5 - (8 - 16 / 2)) / 8 + 1 + 2 = 1 / 2 from hz, hmf]

/-- C2 (amended): the sweep has no recovery path: if the nonlinear fit
raises for the first candidate width, the whole sweep aborts with that
error and no later candidate is attempted. -/
theorem sweep_error_aborts (fit : ℚ → Except Unit ℚ) (w : ℚ) (ws : List ℚ)
    (e : Unit) (h : fit w = .error e) :
    sweep fit (w :: ws) = .error e := by
  unfold sweep sweepGo
  rw [h]

/-- Witness for the amended C2. -/
theorem sweep_error_aborts_witness :
    fitFailFirst 1 = Except.error () ∧
      sweep fitFailFirst (1 :: [2]) = Except.error () :=
  ⟨rfl, sweep_error_aborts fitFailFirst 1 [2] () rfl⟩

/-- C2 (counterexample to the claim as stated): the fit fails only for
width 1 and succeeds for width 2, yet the whole sweep fails — the failing
width is not skipped, contradicting "the whole sweep fails only if the fit
fails for every candidate width". -/
theorem sweep_abort_counterexample :
    sweep fitFailFirst [1, 2] = Except.error () ∧
      fitFailFirst 2 = Except.ok 0 :=
  ⟨rfl, rfl⟩

/-- `pass1` fails (Python `IndexError` on `bestP[j]`) whenever the reduced
vector is shorter than the number of free parameters. -/
theorem pass1_short (ss : List ℚ) :
    ∀ ps bp : List ℚ, bp.length < posCount ss → pass1 ss ps bp = none := by
  induction ss with
  | nil => intro ps bp h; simp [posCount] at h
  | cons s ss ih =>
    intro ps bp h
    by_cases hs : 0 < s
    · cases bp with
      | nil => simp [pass1, hs]
      | cons b bs =>
        have hcnt : posCount (s :: ss) = posCount ss + 1 := by
          simp [posCount, List.filter_cons, hs]
        rw [hcnt] at h
        have hlt : bs.length < posCount ss := by
          simpa using Nat.lt_of_succ_lt_succ h
        simp [pass1, hs, ih ps.tail bs hlt]
    · cases ps with
      | nil => simp [pass1, hs]
      | cons p ps' =>
        have hcnt : posCount (s :: ss) = posCount ss := by
          simp [posCount, List.filter_cons, hs]
        rw [hcnt] at h
        simp [pass1, hs, ih ps' bp h]

/-- C8: if the reduced vector has fewer entries than the number of strictly
positive step sizes, `get_params` fails (surfaces an error) instead of
returning a result. -/
theorem get_params_short (bestP stepsize params : List ℚ)
    (h : bestP.length < posCount stepsize) :
    get_params bestP stepsize params = none := by
  unfold get_params
  rw [pass1_short stepsize params bestP h]
  rfl

/-- Witness for C8 at a concrete input. -/
theorem get_params_short_witness :
    ([] : List ℚ).length < posCount [1] ∧
      get_params [] [1] [0] = none :=
  ⟨by decide, get_params_short [] [1] [0] (by decide)⟩

theorem omean_isSome (l : List ℚ) (h : l ≠ []) : (omean l).isSome = true := by
  unfold omean
  rw [if_neg h]
  rfl

theorem oerrMean_isSome (l : List ℚ) (h : l ≠ []) :
    (oerrMean l).isSome = true := by
  unfold oerrMean
  rw [if_neg h]
  rfl

/-- C6: with uncertainties supplied, the three arrays `bindata` returns
have the same (reduced) length, and none of their entries is NaN — every
kept bin is backed by a nonempty sample group, and empty bins are dropped
by the mask rather than raising. -/
theorem bindataErr_no_nan (x y yerr : List ℚ) (width : ℚ)
    (hx : x ≠ []) (hw : 0 < width)
    (hxy : x.length = y.length) (hxe : x.length = yerr.length) :
    ((bindataErr x y yerr width).1.length
        = (bindataErr x y yerr width).2.1.length ∧
      (bindataErr x y yerr width).2.1.length
        = (bindataErr x y yerr width).2.2.length) ∧
      (∀ o ∈ (bindataErr x y yerr width).1, o.isSome = true) ∧
      (∀ o ∈ (bindataErr x y yerr width).2.1, o.isSome = true) ∧
      (∀ o ∈ (bindataErr x y yerr width).2.2, o.isSome = true) := by
  unfold bindataErr
  simp only
  refine ⟨⟨applyMask_length_eq _ _ _ (by simp), applyMask_length_eq _ _ _ (by simp)⟩,
    applyMask_map_map _ _ _ _ ?_, applyMask_map_map _ _ _ _ ?_,
    applyMask_map_map _ _ _ _ ?_⟩ <;>
  · intro k _ hk
    have hne := of_decide_eq_true hk
    first
      | exact omean_isSome _ (by simpa using hne)
      | exact oerrMean_isSome _ (by simpa using hne)

/-- Witness for C6 at a concrete input. -/
theorem bindataErr_no_nan_witness :
    (([(0 : ℚ), 1] ≠ []) ∧ (0 : ℚ) < 1 ∧
      ([(0 : ℚ), 1].length = [(1 : ℚ), 2].length) ∧
      ([(0 : ℚ), 1].length = [(1 : ℚ), 1].length)) ∧
      (((bindataErr [(0 : ℚ), 1] [(1 : ℚ), 2] [(1 : ℚ), 1] 1).1.length
          = (bindataErr [(0 : ℚ), 1] [(1 : ℚ), 2] [(1 : ℚ), 1] 1).2.1.length ∧
        (bindataErr [(0 : ℚ), 1] [(1 : ℚ), 2] [(1 : ℚ), 1] 1).2.1.length
          = (bindataErr [(0 : ℚ), 1] [(1 : ℚ), 2] [(1 : ℚ), 1] 1).2.2.length) ∧
        (∀ o ∈ (bindataErr [(0 : ℚ), 1] [(1 : ℚ), 2] [(1 : ℚ), 1] 1).1,
          o.isSome = true) ∧
        (∀ o ∈ (bindataErr [(0 : ℚ), 1] [(1 : ℚ), 2] [(1 : ℚ), 1] 1).2.1,
          o.isSome = true) ∧
        (∀ o ∈ (bindataErr [(0 : ℚ), 1] [(1 : ℚ), 2] [(1 : ℚ), 1] 1).2.2,
          o.isSome = true)) :=
  ⟨⟨by decide, by norm_num, by decide, by decide⟩,
    bindataErr_no_nan [0, 1] [1, 2] [1, 1] 1 (by decide) (by norm_num)
      (by decide) (by decide)⟩

theorem getD_set_ne (arr : List ℚ) (i k : ℕ) (v : ℚ) (h : i ≠ k) :
    (arr.set i v).getD k 0 = arr.getD k 0 := by
  rw [List.getD_eq_getElem?_getD, List.getD_eq_getElem?_getD,
    List.getElem?_set_ne h]

theorem getD_set_self (arr : List ℚ) (i : ℕ) (v : ℚ) (h : i < arr.length) :
    (arr.set i v).getD i 0 = v := by
  rw [List.getD_eq_getElem?_getD, List.getElem?_set_eq h]
  rfl

/-- First-pass contract: with enough `bestP` entries, `pass1` succeeds and
fills positive-step slots from `bestP` in order and the rest from
`params`. -/
theorem pass1_spec :
    ∀ ss ps bp : List ℚ, ss.length = ps.length → posCount ss ≤ bp.length →
      ∃ out, pass1 ss ps bp = some out ∧ out.length = ss.length ∧
        ∀ i, i < ss.length →
          out.getD i 0 = if 0 < ss.getD i 0
            then bp.getD (posCount (ss.take i)) 0
            else ps.getD i 0 := by
  intro ss
  induction ss with
  | nil =>
    intro ps bp _ _
    exact ⟨[], rfl, rfl, by intro i hi; cases hi⟩
  | cons s ss ih =>
    intro ps bp hlen hcnt
    cases ps with
    | nil => simp at hlen
    | cons p ps' =>
      have hlen' : ss.length = ps'.length := by simpa using hlen
      by_cases hs : 0 < s
      · have hcnt' : posCount (s :: ss) = posCount ss + 1 := by
          simp [posCount, List.filter_cons, hs]
        cases bp with
        | nil =>
          exfalso
          rw [hcnt'] at hcnt
          simp at hcnt
        | cons b bs =>
          have hcnt2 : posCount ss ≤ bs.length := by
            rw [hcnt'] at hcnt
            simpa using hcnt
          obtain ⟨out', h1, h2, h3⟩ := ih ps' bs hlen' hcnt2
          refine ⟨b :: out', ?_, by simpa using h2, ?_⟩
          · show pass1 (s :: ss) (p :: ps') (b :: bs) = some (b :: out')
            simp [pass1, hs, h1]
          · intro i hi
            cases i with
            | zero =>
              simp [hs, posCount]
            | succ j =>
              have hj : j < ss.length := by simpa using hi
              rw [List.getD_cons_succ, h3 j hj, List.getD_cons_succ,
                List.take_succ_cons]
              have hpc : posCount (s :: ss.take j) = posCount (ss.take j) + 1 := by
                simp [posCount, List.filter_cons, hs]
              rw [hpc]
              by_cases hsj : 0 < ss.getD j 0
              · rw [if_pos hsj, if_pos hsj, List.getD_cons_succ]
              · rw [if_neg hsj, if_neg hsj, List.getD_cons_succ]
      · have hcnt' : posCount (s :: ss) = posCount ss := by
          simp [posCount, List.filter_cons, hs]
        have hcnt2 : posCount ss ≤ bp.length := by
          rw [hcnt'] at hcnt
          exact hcnt
        obtain ⟨out', h1, h2, h3⟩ := ih ps' bp hlen' hcnt2
        refine ⟨p :: out', ?_, by simpa using h2, ?_⟩
        · show pass1 (s :: ss) (p :: ps') bp = some (p :: out')
          simp [pass1, hs, h1]
        · intro i hi
          cases i with
          | zero => simp [hs]
          | succ j =>
            have hj : j < ss.length := by simpa using hi
            rw [List.getD_cons_succ, h3 j hj, List.getD_cons_succ,
              List.take_succ_cons]
            have hpc : posCount (s :: ss.take j) = posCount (ss.take j) := by
              simp [posCount, List.filter_cons, hs]
            rw [hpc, List.getD_cons_succ]

/-- Second-pass contract: when every tie references an in-range,
non-negative-step slot, `pass2go` succeeds, leaves non-tied slots
untouched, and rewrites each tied slot with the first-pass value at its
tie target. -/
theorem pass2go_spec (stepsize : List ℚ)
    (hties : ∀ j, j < stepsize.length → stepsize.getD j 0 < 0 →
      tieIdx (stepsize.getD j 0) < stepsize.length ∧
        0 ≤ stepsize.getD (tieIdx (stepsize.getD j 0)) 0) :
    ∀ ss : List ℚ, ∀ (i : ℕ) (arr : List ℚ),
      ss = stepsize.drop i → arr.length = stepsize.length →
      ∃ out, pass2go ss i arr = some out ∧ out.length = arr.length ∧
        (∀ k, ¬ stepsize.getD k 0 < 0 → out.getD k 0 = arr.getD k 0) ∧
        (∀ k, k < i → out.getD k 0 = arr.getD k 0) ∧
        (∀ k, i ≤ k → k < stepsize.length → stepsize.getD k 0 < 0 →
          out.getD k 0 = arr.getD (tieIdx (stepsize.getD k 0)) 0) := by
  intro ss
  induction ss with
  | nil =>
    intro i arr hdrop hlen
    refine ⟨arr, rfl, rfl, fun k _ => rfl, fun k _ => rfl, ?_⟩
    intro k hik hk _
    have hle : stepsize.length ≤ i := List.drop_eq_nil_iff.mp hdrop.symm
    omega
  | cons s ss ih =>
    intro i arr hdrop hlen
    have hsi : stepsize.getD i 0 = s := by
      have h0 : stepsize[i]? = some s := by
        have hh : (stepsize.drop i)[0]? = some s := by
          rw [← hdrop]
          simp
        rwa [List.getElem?_drop, Nat.add_zero] at hh
      rw [List.getD_eq_getElem?_getD, h0]
      rfl
    have hdrop' : ss = stepsize.drop (i + 1) := by
      rw [← List.tail_drop, ← hdrop]
      rfl
    have hilt : i < stepsize.length := by
      by_contra hge
      rw [List.drop_eq_nil_of_le (by omega)] at hdrop
      simp at hdrop
    by_cases hs : s < 0
    · have hti := hties i hilt (by rw [hsi]; exact hs)
      rw [hsi] at hti
      have htlt : tieIdx s < arr.length := by
        rw [hlen]
        exact hti.1
      have hread : arr[tieIdx s]? = some (arr.getD (tieIdx s) 0) := by
        rw [List.getD_eq_getElem arr 0 htlt]
        exact List.getElem?_eq_getElem htlt
      obtain ⟨out, h1, h2, h3, h4, h5⟩ :=
        ih (i + 1) (arr.set i (arr.getD (tieIdx s) 0)) hdrop' (by simpa using hlen)
      refine ⟨out, ?_, by simpa using h2, ?_, ?_, ?_⟩
      · show pass2go (s :: ss) i arr = some out
        simp only [pass2go]
        rw [if_pos hs, hread]
        exact h1
      · intro k hk
        have hne : i ≠ k := by
          intro he
          rw [← he, hsi] at hk
          exact hk hs
        rw [h3 k hk, getD_set_ne arr i k _ hne]
      · intro k hki
        rw [h4 k (by omega), getD_set_ne arr i k _ (by omega)]
      · intro k hik hklen hkneg
        rcases Nat.eq_or_lt_of_le hik with heq | hlt
        · have hiarr : i < arr.length := by
            rw [hlen]
            exact hilt
          rw [← heq] at hkneg ⊢
          rw [h4 i (by omega), getD_set_self arr i _ hiarr, hsi]
        · have hnetie : i ≠ tieIdx (stepsize.getD k 0) := by
            have hge := (hties k hklen hkneg).2
            intro he
            rw [← he, hsi] at hge
            exact (not_le.mpr hs) hge
          rw [h5 k (by omega) hklen hkneg,
            getD_set_ne arr i _ _ hnetie]
    · obtain ⟨out, h1, h2, h3, h4, h5⟩ := ih (i + 1) arr hdrop' hlen
      refine ⟨out, ?_, h2, h3, ?_, ?_⟩
      · show pass2go (s :: ss) i arr = some out
        simp only [pass2go]
        rw [if_neg hs]
        exact h1
      · intro k hki
        exact h4 k (by omega)
      · intro k hik hklen hkneg
        have hkne : k ≠ i := by
          intro he
          rw [he, hsi] at hkneg
          exact hs hkneg
        exact h5 k (by omega) hklen hkneg

/-- C4: with a reduced vector of length equal to the number of positive
step sizes, a prior vector of the same length as the step-size vector, and
ties referencing in-range non-tied slots, `get_params` returns a
same-length vector whose positive-step entries come from the reduced
vector in order, whose zero-step entries are the prior values, and whose
negative-step entries equal the resolved value at index `-stepsize-1`. -/
theorem get_params_spec (bestP stepsize params : List ℚ)
    (hlen : stepsize.length = params.length)
    (hbest : bestP.length = posCount stepsize)
    (hties : ∀ j, j < stepsize.length → stepsize.getD j 0 < 0 →
      tieIdx (stepsize.getD j 0) < stepsize.length ∧
        0 ≤ stepsize.getD (tieIdx (stepsize.getD j 0)) 0) :
    ∃ out, get_params bestP stepsize params = some out ∧
      out.length = stepsize.length ∧
      (∀ i, i < stepsize.length → 0 < stepsize.getD i 0 →
        out.getD i 0 = bestP.getD (posCount (stepsize.take i)) 0) ∧
      (∀ i, i < stepsize.length → stepsize.getD i 0 = 0 →
        out.getD i 0 = params.getD i 0) ∧
      (∀ i, i < stepsize.length → stepsize.getD i 0 < 0 →
        out.getD i 0 = out.getD (tieIdx (stepsize.getD i 0)) 0) := by
  obtain ⟨out1, hp1, hlen1, hval1⟩ :=
    pass1_spec stepsize params bestP hlen (le_of_eq hbest.symm)
  obtain ⟨out2, hp2, hlen2, hfix, _, htie⟩ :=
    pass2go_spec stepsize hties stepsize 0 out1 (List.drop_zero stepsize).symm
      (by rw [hlen1])
  refine ⟨out2, ?_, by rw [hlen2, hlen1], ?_, ?_, ?_⟩
  · unfold get_params
    rw [hp1]
    exact hp2
  · intro i hi hpos
    rw [hfix i (by rw [not_lt]; exact le_of_lt hpos), hval1 i hi, if_pos hpos]
  · intro i hi hzero
    rw [hfix i (by rw [not_lt, hzero]), hval1 i hi, if_neg (by rw [hzero]; exact lt_irrefl 0)]
  · intro i hi hneg
    have htgt := hties i hi hneg
    rw [htie i (Nat.zero_le i) hi hneg,
      hfix (tieIdx (stepsize.getD i 0)) (not_lt.mpr htgt.2)]

/-- Witness for C4 at a concrete input: one free, one fixed, one tied
parameter. -/
theorem get_params_spec_witness :
    (([(1 : ℚ), 0, -1].length = [(10 : ℚ), 20, 30].length) ∧
      ([(7 : ℚ)].length = posCount [(1 : ℚ), 0, -1]) ∧
      (∀ j, j < ([(1 : ℚ), 0, -1] : List ℚ).length →
        ([(1 : ℚ), 0, -1] : List ℚ).getD j 0 < 0 →
        tieIdx (([(1 : ℚ), 0, -1] : List ℚ).getD j 0) <
            ([(1 : ℚ), 0, -1] : List ℚ).length ∧
          0 ≤ ([(1 : ℚ), 0, -1] : List ℚ).getD
              (tieIdx (([(1 : ℚ), 0, -1] : List ℚ).getD j 0)) 0)) ∧
      (∃ out, get_params [(7 : ℚ)] [(1 : ℚ), 0, -1] [(10 : ℚ), 20, 30] = some out ∧
        out.length = ([(1 : ℚ), 0, -1] : List ℚ).length ∧
        (∀ i, i < ([(1 : ℚ), 0, -1] : List ℚ).length →
          0 < ([(1 : ℚ), 0, -1] : List ℚ).getD i 0 →
          out.getD i 0 =
            ([(7 : ℚ)] : List ℚ).getD (posCount (([(1 : ℚ), 0, -1] : List ℚ).take i)) 0) ∧
        (∀ i, i < ([(1 : ℚ), 0, -1] : List ℚ).length →
          ([(1 : ℚ), 0, -1] : List ℚ).getD i 0 = 0 →
          out.getD i 0 = ([(10 : ℚ), 20, 30] : List ℚ).getD i 0) ∧
        (∀ i, i < ([(1 : ℚ), 0, -1] : List ℚ).length →
          ([(1 : ℚ), 0, -1] : List ℚ).getD i 0 < 0 →
          out.getD i 0 = out.getD (tieIdx (([(1 : ℚ), 0, -1] : List ℚ).getD i 0)) 0)) := by
  have ht0 : tieIdx (-1 : ℚ) = 0 := by
    norm_num [tieIdx]
  have hts : ∀ j, j < ([(1 : ℚ), 0, -1] : List ℚ).length →
      ([(1 : ℚ), 0, -1] : List ℚ).getD j 0 < 0 →
      tieIdx (([(1 : ℚ), 0, -1] : List ℚ).getD j 0) <
          ([(1 : ℚ), 0, -1] : List ℚ).length ∧
        0 ≤ ([(1 : ℚ), 0, -1] : List ℚ).getD
            (tieIdx (([(1 : ℚ), 0, -1] : List ℚ).getD j 0)) 0 := by
    intro j hj hneg
    simp only [List.length_cons, List.length_nil] at hj
    interval_cases j
    · norm_num at hneg
    · norm_num at hneg
    · simp only [List.getD_cons_succ, List.getD_cons_zero, ht0]
      norm_num
  exact ⟨⟨by decide, by decide, hts⟩,
    get_params_spec [7] [1, 0, -1] [10, 20, 30] (by decide) (by decide) hts⟩

theorem pval_ne_zero (d : ℝ) (hd : d ≠ 0) : pval d ≠ 0 := by
  unfold pval
  have habs : (0 : ℝ) < |d| := abs_pos.mpr hd
  exact mul_ne_zero (ne_of_gt (Real.sqrt_pos.mpr habs))
    (div_ne_zero hd (ne_of_gt habs))

theorem one_add_pval_ne_zero (d : ℝ) (hd : d ≠ 0) (hd1 : d ≠ -1) :
    1 + pval d ≠ 0 := by
  rcases lt_trichotomy d 0 with hneg | hz | hpos
  · have hpv : pval d = -Real.sqrt (-d) := by
      unfold pval
      rw [abs_of_neg hneg, div_neg, div_self hd]
      ring
    rw [hpv]
    intro hcon
    have hone : Real.sqrt (-d) = 1 := by linarith
    have : -d = 1 := by
      have := Real.sqrt_eq_one.mp hone
      exact this
    exact hd1 (by linarith)
  · exact absurd hz hd
  · have hpv : pval d = Real.sqrt d := by
      unfold pval
      rw [abs_of_pos hpos, div_self hd]
      ring
    rw [hpv]
    have := Real.sqrt_nonneg d
    intro hcon
    linarith

/-- At the first-contact separation `z = 1 + p` the occultation formula
evaluates to 1 exactly (both arccos arguments are 1 and the sqrt argument
is 0). -/
theorem mandelFlux_contact (d p : ℝ) (hp : p ≠ 0) (hz : 1 + p ≠ 0) :
    mandelFlux d p (1 + p) = some 1 := by
  have hguard : 2 * p * (1 + p) ≠ 0 :=
    mul_ne_zero (mul_ne_zero two_ne_zero hp) hz
  have ha0 : (p ^ 2 + (1 + p) ^ 2 - 1) / (2 * p * (1 + p)) = 1 := by
    rw [div_eq_one_iff_eq hguard]
    ring
  have ha1 : (1 - p ^ 2 + (1 + p) ^ 2) / (2 * (1 + p)) = 1 := by
    rw [div_eq_one_iff_eq (mul_ne_zero two_ne_zero hz)]
    ring
  have hsv : (4 * (1 + p) ^ 2 - (1 + (1 + p) ^ 2 - p ^ 2) ^ 2) / 4 = 0 := by
    ring
  unfold mandelFlux
  rw [if_neg hguard]
  simp only [ha0, ha1, hsv]
  rw [if_neg (by norm_num), if_neg (by norm_num), if_neg (by norm_num)]
  rw [Real.arccos_one, Real.sqrt_zero]
  norm_num

/-- Branch normal form of `eclipseAt` for equal ingress/egress durations
`0 < c ≤ width/2`: both contact-phase `if`s resolve to `t2 = t1 + c`,
`t3 = t4 - c`. -/
theorem eclipseAt_cases (m w d c F t : ℝ) (hd : d ≠ 0) (hc : c ≠ 0)
    (hcw : c ≤ w / 2) (hp : pval d ≠ 0) :
    eclipseAt [m, w, d, c, c, F] t =
      if m - w / 2 + c ≤ t ∧ t ≤ m + w / 2 - c then some (1 - d)
      else if m - w / 2 ≤ t ∧ t ≤ m - w / 2 + c then
        mandelFlux d (pval d) (-2 * pval d * (t - (m - w / 2)) / c + 1 + pval d)
      else if m + w / 2 - c < t ∧ t < m + w / 2 then
        mandelFlux d (pval d) (2 * pval d * (t - (m + w / 2 - c)) / c + 1 - pval d)
      else some 1 := by
  unfold eclipseAt
  simp only [List.getD_cons_zero, List.getD_cons_succ]
  rw [if_neg hd]
  have ht2 : (if m - w / 2 + c < m then m - w / 2 + c else m) = m - w / 2 + c := by
    by_cases h : m - w / 2 + c < m
    · rw [if_pos h]
    · rw [if_neg h]
      have hceq : c = w / 2 := by
        have := not_lt.mp h
        linarith
      rw [hceq]
      ring
  have ht3 : (if m + w / 2 - c > m then m + w / 2 - c else m) = m + w / 2 - c := by
    by_cases h : m + w / 2 - c > m
    · rw [if_pos h]
    · rw [if_neg h]
      have hceq : c = w / 2 := by
        have := not_lt.mp h
        linarith
      rw [hceq]
      ring
  rw [ht2, ht3, if_pos hp, if_neg hc, if_neg hc]

/-- Symmetry of `eclipseAt` about the midpoint for `t ≤ m`, under equal
ingress/egress durations `0 < c ≤ width/2` and depth outside `{0, -1}`. -/
theorem eclipseAt_symm_aux (m w d c F t : ℝ) (hd : d ≠ 0) (hd1 : d ≠ -1)
    (hc : 0 < c) (hcw : c ≤ w / 2) (ht : t ≤ m) :
    eclipseAt [m, w, d, c, c, F] (2 * m - t) = eclipseAt [m, w, d, c, c, F] t := by
  have hp := pval_ne_zero d hd
  have h1p := one_add_pval_ne_zero d hd hd1
  rw [eclipseAt_cases m w d c F t hd (ne_of_gt hc) hcw hp,
    eclipseAt_cases m w d c F (2 * m - t) hd (ne_of_gt hc) hcw hp]
  by_cases hB : m - w / 2 + c ≤ t ∧ t ≤ m + w / 2 - c
  · rw [if_pos hB,
      if_pos (show m - w / 2 + c ≤ 2 * m - t ∧ 2 * m - t ≤ m + w / 2 - c by
        constructor <;> [linarith [hB.2]; linarith [hB.1]])]
  · by_cases hlt1 : t < m - w / 2
    · rw [if_neg hB]
      rw [if_neg (fun hcon : m - w / 2 ≤ t ∧ t ≤ m - w / 2 + c =>
        absurd hcon.1 (not_le.mpr hlt1))]
      rw [if_neg (fun hcon : m + w / 2 - c < t ∧ t < m + w / 2 => by
        have := hcon.1
        linarith)]
      rw [if_neg (fun hcon : m - w / 2 + c ≤ 2 * m - t ∧ 2 * m - t ≤ m + w / 2 - c => by
        have := hcon.2
        linarith)]
      rw [if_neg (fun hcon : m - w / 2 ≤ 2 * m - t ∧ 2 * m - t ≤ m - w / 2 + c => by
        have := hcon.2
        linarith)]
      rw [if_neg (fun hcon : m + w / 2 - c < 2 * m - t ∧ 2 * m - t < m + w / 2 => by
        have := hcon.2
        linarith)]
    · by_cases hteq : t = m - w / 2
      · subst hteq
        rw [if_neg hB]
        rw [if_pos (show m - w / 2 ≤ m - w / 2 ∧ m - w / 2 ≤ m - w / 2 + c by
          constructor <;> linarith)]
        rw [if_neg (fun hcon : m - w / 2 + c ≤ 2 * m - (m - w / 2) ∧
            2 * m - (m - w / 2) ≤ m + w / 2 - c => by
          have := hcon.2
          linarith)]
        rw [if_neg (fun hcon : m - w / 2 ≤ 2 * m - (m - w / 2) ∧
            2 * m - (m - w / 2) ≤ m - w / 2 + c => by
          have := hcon.2
          linarith)]
        rw [if_neg (fun hcon : m + w / 2 - c < 2 * m - (m - w / 2) ∧
            2 * m - (m - w / 2) < m + w / 2 => by
          have := hcon.2
          linarith)]
        rw [show -2 * pval d * (m - w / 2 - (m - w / 2)) / c + 1 + pval d
            = 1 + pval d by
          rw [show m - w / 2 - (m - w / 2) = 0 by ring]
          rw [mul_zero, zero_div]
          ring]
        rw [mandelFlux_contact d (pval d) hp h1p]
      · have htgt : m - w / 2 < t :=
          lt_of_le_of_ne (not_lt.mp hlt1) (Ne.symm hteq)
        have htlt : t < m - w / 2 + c := by
          rcases not_and_or.mp hB with h | h
          · exact not_le.mp h
          · exact absurd (by linarith : t ≤ m + w / 2 - c) h
        rw [if_neg hB]
        rw [if_pos (show m - w / 2 ≤ t ∧ t ≤ m - w / 2 + c by
          constructor <;> linarith)]
        rw [if_neg (fun hcon : m - w / 2 + c ≤ 2 * m - t ∧
            2 * m - t ≤ m + w / 2 - c => by
          have := hcon.2
          linarith)]
        rw [if_neg (fun hcon : m - w / 2 ≤ 2 * m - t ∧
            2 * m - t ≤ m - w / 2 + c => by
          have := hcon.2
          linarith)]
        rw [if_pos (show m + w / 2 - c < 2 * m - t ∧ 2 * m - t < m + w / 2 by
          constructor <;> linarith)]
        rw [show 2 * pval d * (2 * m - t - (m + w / 2 - c)) / c + 1 - pval d
            = -2 * pval d * (t - (m - w / 2)) / c + 1 + pval d by
          field_simp
          ring]

/-- C9 (amended): for equal ingress/egress durations `t12 = t34 = c` with
`0 < c ≤ width/2` and depth outside `{0, -1}`, the eclipse model is
symmetric about the midpoint. -/
theorem eclipse_symm (m w d c F t : ℝ) (hd : d ≠ 0) (hd1 : d ≠ -1)
    (hc : 0 < c) (hcw : c ≤ w / 2) :
    eclipseAt [m, w, d, c, c, F] (2 * m - t) = eclipseAt [m, w, d, c, c, F] t := by
  rcases le_total t m with h | h
  · exact eclipseAt_symm_aux m w d c F t hd hd1 hc hcw h
  · have h2 : 2 * m - t ≤ m := by linarith
    have hrec := eclipseAt_symm_aux m w d c F (2 * m - t) hd hd1 hc hcw h2
    rw [show 2 * m - (2 * m - t) = t from by ring] at hrec
    exact hrec.symm

/-- Witness for the amended C9. -/
theorem eclipse_symm_witness :
    ((1 : ℝ) ≠ 0 ∧ (1 : ℝ) ≠ -1 ∧ (0 : ℝ) < 1 ∧ (1 : ℝ) ≤ 2 / 2) ∧
      eclipseAt [(0 : ℝ), 2, 1, 1, 1, 1] (2 * 0 - 5)
        = eclipseAt [(0 : ℝ), 2, 1, 1, 1, 1] 5 :=
  ⟨⟨by norm_num, by norm_num, by norm_num, by norm_num⟩,
    eclipse_symm 0 2 1 1 1 5 (by norm_num) (by norm_num) (by norm_num)
      (by norm_num)⟩

/-- C9 (counterexample to the claim as stated): with depth 4, width 2 and
equal ingress/egress durations `t12 = t34 = 8` (allowed by the claim, which
only requires `depth ≠ 0`, positive width and `t12 = t34`), the sample at
`t = -1/2` evaluates to a number while its mirror `2·midpoint - t = 1/2`
evaluates to NaN: the model is not symmetric about the midpoint. -/
theorem eclipse_symm_counterexample :
    eclipseAt [(0 : ℝ), 2, 4, 8, 8, 1] (2 * 0 - -(1 / 2))
      ≠ eclipseAt [(0 : ℝ), 2, 4, 8, 8, 1] (-(1 / 2)) := by
  have h4 : |(4 : ℝ)| = 4 := by norm_num
  have hs4 : Real.sqrt 4 = 2 := by
    rw [show (4 : ℝ) = 2 ^ 2 by norm_num]
    exact Real.sqrt_sq (by norm_num)
  have hp : pval 4 = 2 := by
    unfold pval
    rw [h4, hs4]
    norm_num
  have hL : eclipseAt [(0 : ℝ), 2, 4, 8, 8, 1] (2 * 0 - -(1 / 2)) = none := by
    rw [show (2 * (0 : ℝ) - -(1 / 2)) = 1 / 2 by norm_num]
    unfold eclipseAt
    simp only [List.getD_cons_succ, List.getD_cons_zero, hp]
    rw [if_neg (by norm_num : ¬(4 : ℝ) = 0)]
    rw [if_neg (by norm_num : ¬((0 : ℝ) - 2 / 2 + 8 < 0))]
    rw [if_neg (by norm_num : ¬((0 : ℝ) + 2 / 2 - 8 > 0))]
    rw [if_neg (by norm_num : ¬((0 : ℝ) ≤ 1 / 2 ∧ (1 / 2 : ℝ) ≤ 0))]
    rw [if_pos (by norm_num : (2 : ℝ) ≠ 0)]
    rw [if_neg (by norm_num : ¬((0 : ℝ) - 2 / 2 ≤ 1 / 2 ∧ (1 / 2 : ℝ) ≤ 0))]
    rw [if_pos (by norm_num : (0 : ℝ) < 1 / 2 ∧ (1 / 2 : ℝ) < 0 + 2 / 2)]
    rw [if_neg (by norm_num : ¬(8 : ℝ) = 0)]
    rw [show (2 : ℝ) * 2 * (1 / 2 - 0) / 8 + 1 - 2 = -(3 / 4) by norm_num]
    unfold mandelFlux
    rw [if_neg (by norm_num : ¬(2 : ℝ) * 2 * -(3 / 4) = 0)]
    simp only
    rw [if_pos (Or.inl (by norm_num :
      ((2 : ℝ) ^ 2 + (-(3 / 4) : ℝ) ^ 2 - 1) / (2 * 2 * -(3 / 4)) < -1))]
  have hR : eclipseAt [(0 : ℝ), 2, 4, 8, 8, 1] (-(1 / 2)) ≠ none := by
    unfold eclipseAt
    simp only [List.getD_cons_succ, List.getD_cons_zero, hp]
    rw [if_neg (by norm_num : ¬(4 : ℝ) = 0)]
    rw [if_neg (by norm_num : ¬((0 : ℝ) - 2 / 2 + 8 < 0))]
    rw [if_neg (by norm_num : ¬((0 : ℝ) + 2 / 2 - 8 > 0))]
    rw [if_neg (by norm_num : ¬((0 : ℝ) ≤ -(1 / 2) ∧ (-(1 / 2) : ℝ) ≤ 0))]
    rw [if_pos (by norm_num : (2 : ℝ) ≠ 0)]
    rw [if_pos (by norm_num :
      (0 : ℝ) - 2 / 2 ≤ -(1 / 2) ∧ (-(1 / 2) : ℝ) ≤ 0)]
    rw [if_neg (by norm_num : ¬(8 : ℝ) = 0)]
    rw [show (-2 : ℝ) * 2 * (-(1 / 2) - (0 - 2 / 2)) / 8 + 1 + 2 = 11 / 4 by
      norm_num]
    unfold mandelFlux
    rw [if_neg (by norm_num : ¬(2 : ℝ) * 2 * (11 / 4) = 0)]
    simp only
    rw [if_neg (by norm_num : ¬(((2 : ℝ) ^ 2 + ((11 / 4) : ℝ) ^ 2 - 1) /
        (2 * 2 * (11 / 4)) < -1 ∨
      1 < ((2 : ℝ) ^ 2 + ((11 / 4) : ℝ) ^ 2 - 1) / (2 * 2 * (11 / 4))))]
    rw [if_neg (by norm_num : ¬((1 - (2 : ℝ) ^ 2 + ((11 / 4) : ℝ) ^ 2) /
        (2 * (11 / 4)) < -1 ∨
      1 < (1 - (2 : ℝ) ^ 2 + ((11 / 4) : ℝ) ^ 2) / (2 * (11 / 4))))]
    rw [if_neg (by norm_num :
      ¬(4 * ((11 / 4) : ℝ) ^ 2 - (1 + ((11 / 4) : ℝ) ^ 2 - (2 : ℝ) ^ 2) ^ 2) / 4 < 0)]
    simp
  intro heq
  rw [hL] at heq
  exact hR heq.symm

/-- The last of the six eclipse parameters sliced out of `par` is
`par[npix+5]` (the flux-norm entry). -/
theorem eclparams_getLast (par : List ℝ) (npix : ℕ)
    (hpar : par.length = npix + 9) :
    ((par.drop npix).take 6).getLastD 0 = par.getD (npix + 5) 0 := by
  have hlen : ((par.drop npix).take 6).length = 6 := by
    rw [List.length_take, List.length_drop, hpar]
    omega
  rw [List.getLastD_eq_getLast?, List.getLast?_eq_getElem?, hlen]
  rw [List.getElem?_take, List.getElem?_drop]
  norm_num [List.getD_eq_getElem?_getD]

/-- C1: for a parameter vector of length `npix + 9`, `zen` evaluates, at
each sample `s`, to the pixel term `Σ_i par[i]·phat[s,i]`, plus
`par[npix+5]` times `(eclipse(x[s], par[npix..npix+5]) - 1)`, plus the
quadratic ramp `par[npix+6] + par[npix+7]·x[s] + par[npix+8]·x[s]^2`
(NaN from the eclipse model propagates through `Option.map`). -/
theorem zen_formula (par x : List ℝ) (phat : List (List ℝ)) (npix s : ℕ)
    (hpar : par.length = npix + 9) (hs : s < x.length) :
    (zen par x phat npix).getD s none =
      (eclipseAt ((par.drop npix).take 6) (x.getD s 0)).map (fun e =>
        (∑ i in Finset.range npix, par.getD i 0 * (phat.getD s []).getD i 0)
        + par.getD (npix + 5) 0 * (e - 1)
        + (par.getD (npix + 6) 0 + par.getD (npix + 7) 0 * x.getD s 0
           + par.getD (npix + 8) 0 * (x.getD s 0) ^ 2)) := by
  unfold zen
  simp only [List.getD_eq_getElem?_getD, List.getElem?_map, List.getElem?_range, hs,
    if_pos, Option.map_some', Option.getD_some]
  rw [show par.length - npix - 3 = 6 from by omega]
  rw [show par.length - 3 = npix + 6 from by omega]
  rw [show par.length - 2 = npix + 7 from by omega]
  rw [show par.length - 1 = npix + 8 from by omega]
  rw [eclparams_getLast par npix hpar]
  simp only [List.getD_eq_getElem?_getD]

/-- Witness for C1 at a concrete input (depth 0, so the eclipse term
vanishes). -/
theorem zen_formula_witness :
    ([(2 : ℝ), 0, 0, 0, 0, 0, 3, 1, 1, 1].length = 1 + 9 ∧ 0 < [(2 : ℝ)].length) ∧
      (zen [(2 : ℝ), 0, 0, 0, 0, 0, 3, 1, 1, 1] [(2 : ℝ)] [[(5 : ℝ)]] 1).getD 0 none =
        (eclipseAt (([(2 : ℝ), 0, 0, 0, 0, 0, 3, 1, 1, 1].drop 1).take 6)
            ([(2 : ℝ)].getD 0 0)).map (fun e =>
          (∑ i in Finset.range 1,
            [(2 : ℝ), 0, 0, 0, 0, 0, 3, 1, 1, 1].getD i 0 *
              ([[(5 : ℝ)]].getD 0 []).getD i 0)
          + [(2 : ℝ), 0, 0, 0, 0, 0, 3, 1, 1, 1].getD (1 + 5) 0 * (e - 1)
          + ([(2 : ℝ), 0, 0, 0, 0, 0, 3, 1, 1, 1].getD (1 + 6) 0
             + [(2 : ℝ), 0, 0, 0, 0, 0, 3, 1, 1, 1].getD (1 + 7) 0 *
                 [(2 : ℝ)].getD 0 0
             + [(2 : ℝ), 0, 0, 0, 0, 0, 3, 1, 1, 1].getD (1 + 8) 0 *
                 ([(2 : ℝ)].getD 0 0) ^ 2)) :=
  ⟨⟨by norm_num, by norm_num⟩,
    zen_formula [(2 : ℝ), 0, 0, 0, 0, 0, 3, 1, 1, 1] [(2 : ℝ)] [[(5 : ℝ)]] 1 0
      (by norm_num) (by norm_num)⟩

end Zen
